import Mathlib

/-!
Verification of the relix repository state engine (src/main.cpp).

Strings of the C++ source are modelled as `List Char`; a file's on-disk
byte content is a single `List Char` (each written line is terminated by
a newline character, mirroring `atomicWriteLines` and `std::getline`).
Environment-dependent outcomes (write success, backup success, append
success) are supplied by an `Env` oracle; the filesystem is an
association list from paths to byte contents.
-/

set_option autoImplicit false

namespace Relix

/-- Byte strings of the C++ program. -/
abbrev Str := List Char

/-- The whitespace set of `trimStr` in the source: `" \t\r\n"`. -/
def isSp (c : Char) : Bool := c = ' ' || c = '\t' || c = '\r' || c = '\n'

/-- The whitespace set of `std::istream >>` (`std::isspace`). -/
def isWsp (c : Char) : Bool :=
  c = ' ' || c = '\t' || c = '\n' || c = '\x0b' || c = '\x0c' || c = '\r'

/-- Left part of `trimStr`: drop leading `" \t\r\n"` characters. -/
def trimLeft (s : Str) : Str := s.dropWhile isSp

/-- Right part of `trimStr`: drop trailing `" \t\r\n"` characters. -/
def trimRight (s : Str) : Str := (s.reverse.dropWhile isSp).reverse

/-- `trimStr` from the source: strip surrounding `" \t\r\n"`. -/
def trimStr (s : Str) : Str := trimRight (trimLeft s)

/-- `s[i]` of C++ `std::string`: the null character when reading the
terminator position (index = size). -/
def cppIndex (s : Str) (i : Nat) : Char := s.getD i (Char.ofNat 0)

/-- Worker for `splitWords`; accumulates the current word reversed. -/
def splitWordsAux : Str → Str → List Str
  | [], acc => if acc.isEmpty then [] else [acc.reverse]
  | c :: rest, acc =>
    if isWsp c then
      if acc.isEmpty then splitWordsAux rest [] else acc.reverse :: splitWordsAux rest []
    else splitWordsAux rest (c :: acc)

/-- `splitWords` from the source: whitespace-separated tokens via
`std::istringstream >>`. -/
def splitWords (s : Str) : List Str := splitWordsAux s []

/-- `toLower` from the source (ASCII tolower on every character). -/
def toLowerStr (s : Str) : Str := s.map Char.toLower

/-- `std::string::find(needle) != npos`: some contiguous substring of the
haystack equals the needle. -/
def hasSub (needle : Str) : Str → Bool
  | [] => needle.isEmpty
  | c :: t => needle.isPrefixOf (c :: t) || hasSub needle t

/-- Join strings with single spaces (the `components` accumulation loop in
`parseListFile`, and the comps rendering in `parseSourcesFile`). -/
def joinSp : List Str → Str
  | [] => []
  | [w] => w
  | w :: ws => w ++ ' ' :: joinSp ws

/-- Worker for `splitLines`; mirrors repeated `std::getline`. -/
def splitLinesAux : Str → Str → List Str
  | [], acc => if acc.isEmpty then [] else [acc.reverse]
  | c :: rest, acc =>
    if c = '\n' then acc.reverse :: splitLinesAux rest []
    else splitLinesAux rest (c :: acc)

/-- `readAllLines` on raw bytes: the line sequence `std::getline` yields. -/
def splitLines (s : Str) : List Str := splitLinesAux s []

/-- The byte content `atomicWriteLines` produces: every line followed by
one `'\n'`. -/
def linesToBytes : List Str → Str
  | [] => []
  | l :: ls => l ++ '\n' :: linesToBytes ls

/- ── data model ─────────────────────────────────────────────────────── -/

/-- `RepoEntry` from the source. -/
structure RepoEntry where
  file : Str
  display : Str
  enabled : Bool
  isDeb822 : Bool
  blockIndex : Int
  uri : Str
  suite : Str
  components : Str
  types : Str
  deriving DecidableEq, Repr

/-- `UndoEntry` from the source. -/
structure UndoEntry where
  file : Str
  lines : List Str
  deriving DecidableEq, Repr

/-- The mutable state the engine touches: on-disk files (path ↦ bytes),
the undo stack (top at the back, as in the source vector), and the backup
directory (list of copies made). -/
structure SysState where
  files : List (Str × Str)
  undoStack : List UndoEntry
  backups : List (Str × Str)
  deriving DecidableEq, Repr

/-- Environment oracle: whether the tmp-write/rename succeeds, whether the
backup copy succeeds, and whether an append-mode open succeeds. -/
structure Env where
  writeOk : Bool
  backupOk : Bool
  appendOk : Bool
  deriving DecidableEq, Repr

/-- Look a path up in the filesystem. -/
def fsGet (files : List (Str × Str)) (p : Str) : Option Str :=
  (files.find? (fun kv => kv.1 = p)).map (·.2)

/-- Replace (or create) the content stored at a path. -/
def fsSet (files : List (Str × Str)) (p : Str) (b : Str) : List (Str × Str) :=
  match files with
  | [] => [(p, b)]
  | kv :: rest => if kv.1 = p then (p, b) :: rest else kv :: fsSet rest p b

/-- Bytes of a file; a file that cannot be opened reads as empty, exactly
as `readAllLines` yields no lines for it. -/
def readBytes (st : SysState) (p : Str) : Str := (fsGet st.files p).getD []

/-- `readAllLines` from the source, over the modelled filesystem. -/
def readAllLines (st : SysState) (p : Str) : List Str := splitLines (readBytes st p)

/- ── SECTION 6: parseListFile ───────────────────────────────────────── -/

/-- `parseListFile` from the source, as a function from the path and the
file's line sequence to the entries appended to `g_repos`. -/
def parseListFile (path : Str) : List Str → List RepoEntry
  | [] => []
  | line :: rest =>
    let t := trimStr line
    if t.isEmpty then parseListFile path rest
    else
      let isDeb := "deb".toList.isPrefixOf t
      let isHDeb := cppIndex t 0 = '#' && "deb".toList.isPrefixOf (trimStr (t.drop 1))
      if !isDeb && !isHDeb then parseListFile path rest
      else
        let enabled : Bool := !(cppIndex t 0 = '#')
        let parseable := if enabled then t else trimStr (t.drop (if cppIndex t 1 = ' ' then 2 else 1))
        let words := splitWords parseable
        { file := path
          display := line
          enabled := enabled
          isDeb822 := false
          blockIndex := -1
          uri := words.getD 1 []
          suite := words.getD 2 []
          components := joinSp (words.drop 3)
          types := "deb".toList } :: parseListFile path rest

/- ── SECTION 6: parseSourcesFile ────────────────────────────────────── -/

/-- The per-block key/value state accumulated by `processBlock`'s loop. -/
structure BlockFields where
  types : Str := []
  uriRaw : Str := []
  suitesRaw : Str := []
  compRaw : Str := []
  uris : List Str := []
  suites : List Str := []
  comps : List Str := []
  enabled : Bool := true
  deriving DecidableEq, Repr

/-- One iteration of the field-scanning loop inside `processBlock`. -/
def procLine (f : BlockFields) (l0 : Str) : BlockFields :=
  let l := trimStr l0
  if l.isEmpty || cppIndex l 0 = '#' then f
  else if "Types:".toList.isPrefixOf l then { f with types := trimStr (l.drop 6) }
  else if "URIs:".toList.isPrefixOf l then
    let r := trimStr (l.drop 5); { f with uriRaw := r, uris := splitWords r }
  else if "Suites:".toList.isPrefixOf l then
    let r := trimStr (l.drop 7); { f with suitesRaw := r, suites := splitWords r }
  else if "Components:".toList.isPrefixOf l then
    let r := trimStr (l.drop 11); { f with compRaw := r, comps := splitWords r }
  else if "Enabled:".toList.isPrefixOf l then
    let v := trimStr (l.drop 8)
    { f with enabled := v = "yes".toList || v = "Yes".toList || v = "YES".toList }
  else f

/-- The fields `processBlock` extracts from a block's lines. -/
def blockFields (b : List Str) : BlockFields := b.foldl procLine {}

/-- Whether `processBlock` emits entries for a block: `Types` contains the
substring `deb` and neither `URIs` nor `Suites` splits to empty. -/
def acceptBlock (b : List Str) : Bool :=
  let f := blockFields b
  hasSub "deb".toList f.types && !f.uris.isEmpty && !f.suites.isEmpty

/-- The synthesized `display` string of a deb822 entry. -/
def displayOf (f : BlockFields) (u s : Str) : Str :=
  f.types ++ ' ' :: u ++ ' ' :: s ++ (if f.comps.isEmpty then [] else ' ' :: joinSp f.comps)

/-- One entry of the (uri, suite) cross product. -/
def mkSourcesEntry (path : Str) (bi : Nat) (f : BlockFields) (u s : Str) : RepoEntry :=
  { file := path
    display := displayOf f u s
    enabled := f.enabled
    isDeb822 := true
    blockIndex := (bi : Int)
    uri := u
    suite := s
    components := f.compRaw
    types := f.types }

/-- All entries `processBlock` emits for one accepted block carrying
block index `bi`. -/
def blockEntries (path : Str) (bi : Nat) (b : List Str) : List RepoEntry :=
  let f := blockFields b
  f.uris.flatMap (fun u => f.suites.map (fun s => mkSourcesEntry path bi f u s))

/-- The grouping loop of `parseSourcesFile`: lines become maximal runs of
non-blank lines (a line is blank when its trim is empty); the accumulator
holds the current block reversed. -/
def fileBlocksAux : List Str → List Str → List (List Str)
  | [], block => if block.isEmpty then [] else [block.reverse]
  | l :: ls, block =>
    if (trimStr l).isEmpty then
      if block.isEmpty then fileBlocksAux ls [] else block.reverse :: fileBlocksAux ls []
    else fileBlocksAux ls (l :: block)

/-- The block sequence of a `.sources` file, in file order. -/
def fileBlocks (lines : List Str) : List (List Str) := fileBlocksAux lines []

/-- The numbering fold of `parseSourcesFile`: the counter `blockIndex`
increments only when a block is accepted. -/
def processBlocks (path : Str) : Nat → List (List Str) → List RepoEntry
  | _, [] => []
  | bi, b :: bs =>
    if acceptBlock b then blockEntries path bi b ++ processBlocks path (bi + 1) bs
    else processBlocks path bi bs

/-- `parseSourcesFile` from the source, over the file's line sequence. -/
def parseSourcesFile (path : Str) (lines : List Str) : List RepoEntry :=
  processBlocks path 0 (fileBlocks lines)

/- ── SECTIONS 10/11: block enumeration of the mutation engine ───────── -/

/-- The block-range scan shared by `toggleDeb822` and `deleteRepoClean`:
walk the indexed lines with an "inside a block" state (`some bs` holds the
start index), closing a range at each blank line and at end of file.
Every maximal run of non-blank lines yields one range, numbered by
position. -/
def blockRangesAux : List Str → Nat → Option Nat → List (Nat × Nat)
  | [], _, none => []
  | [], i, some bs => [(bs, i - 1)]
  | l :: ls, i, none =>
    if (trimStr l).isEmpty then blockRangesAux ls (i + 1) none
    else blockRangesAux ls (i + 1) (some i)
  | l :: ls, i, some bs =>
    if (trimStr l).isEmpty then (bs, i - 1) :: blockRangesAux ls (i + 1) none
    else blockRangesAux ls (i + 1) (some bs)

/-- `[blockStart, blockEnd]` line ranges of every block, in file order,
exactly as `toggleDeb822` and `deleteRepoClean` compute them. -/
def blockRanges (lines : List Str) : List (Nat × Nat) := blockRangesAux lines 0 none

/- ── SECTIONS 8/9: backup, atomic write, undo stack ────────────────── -/

/-- Capacity of the undo stack. -/
def k_maxUndo : Nat := 20

/-- Error / status strings of the source (collapsed where the cause is an
environment outcome the `Env` oracle abstracts). -/
def lineNotFoundToggleMsg : Str := "Line not found in file (changed externally?)".toList

def lineNotFoundDeleteMsg : Str := "Line not found in file".toList

def blockRangeToggleMsg : Str := "Block index out of range (file changed externally?)".toList

def blockRangeDeleteMsg : Str := "Block index out of range".toList

def nothingToUndoMsg : Str := "Nothing to undo.".toList

def backupFailMsg : Str := "Backup copy failed".toList

def warnHead : Str := "[warn] backup skipped: ".toList

/-- The single IOError message standing for the three write-failure texts
of `atomicWriteLines` (tmp open, tmp write, rename), whose cause lives in
the environment. -/
def ioErrMsg : Str := "rename() failed".toList

/-- `backupFile` from the source: when the environment lets the copy
succeed and the source file exists, a copy lands in the backup directory;
otherwise it fails with a message and changes nothing. -/
def backupFile (p : Str) (env : Env) (st : SysState) : (Bool × Str) × SysState :=
  if env.backupOk then
    match fsGet st.files p with
    | some bytes => ((true, []), { st with backups := st.backups ++ [(p, bytes)] })
    | none => ((false, backupFailMsg), st)
  else ((false, backupFailMsg), st)

/-- `atomicWriteLines` from the source: on success the path's content is
replaced in one step by the full line sequence, each line followed by a
newline; on failure the original content is untouched. -/
def atomicWriteLines (p : Str) (lines : List Str) (env : Env) (st : SysState) :
    Bool × SysState :=
  if env.writeOk then (true, { st with files := fsSet st.files p (linesToBytes lines) })
  else (false, st)

/-- `pushUndo` from the source: snapshot the file's current line sequence;
evict the oldest snapshot when the stack is full. -/
def pushUndo (p : Str) (st : SysState) : SysState :=
  let lines := readAllLines st p
  let stack := if k_maxUndo ≤ st.undoStack.length then st.undoStack.drop 1 else st.undoStack
  { st with undoStack := stack ++ [⟨p, lines⟩] }

/-- The common tail of `toggleList`, `toggleDeb822` and `deleteRepoClean`:
`pushUndo`, then `backupFile` (non-fatal, leaves a warning in the message),
then `atomicWriteLines`. -/
def commitWrite (p : Str) (newLines : List Str) (env : Env) (st : SysState) :
    (Bool × Str) × SysState :=
  let st1 := pushUndo p st
  let bres := backupFile p env st1
  let warn : Str := if bres.1.1 then [] else warnHead ++ bres.1.2
  let a := atomicWriteLines p newLines env bres.2
  ((a.1, if a.1 then warn else ioErrMsg), a.2)

/-- `applyUndo` from the source: pop the top snapshot only after its
atomic write succeeds. -/
def applyUndo (env : Env) (st : SysState) : (Bool × Str) × SysState :=
  match st.undoStack.getLast? with
  | none => ((false, nothingToUndoMsg), st)
  | some u =>
    let a := atomicWriteLines u.file u.lines env st
    if a.1 then ((true, []), { a.2 with undoStack := a.2.undoStack.dropLast })
    else ((false, ioErrMsg), a.2)

/- ── SECTION 10: toggle ─────────────────────────────────────────────── -/

/-- The replacement line `toggleList` writes over the matched line `l`
(which equals `repo.display`): prefix `"# "` when the entry is enabled,
else strip the first character — and the second when it is a space — and
trim the remainder. -/
def toggledLine (l : Str) (enabled : Bool) : Str :=
  if enabled then '#' :: ' ' :: l
  else trimStr (l.drop (if cppIndex l 1 = ' ' then 2 else 1))

/-- The first-match replacement loop of `toggleList` (and the `found`
flag): `none` when no line equals the display text. -/
def replaceFirst (display newLine : Str) : List Str → Option (List Str)
  | [] => none
  | l :: ls =>
    if l = display then some (newLine :: ls)
    else (replaceFirst display newLine ls).map (l :: ·)

/-- `toggleList` from the source. -/
def toggleList (repo : RepoEntry) (env : Env) (st : SysState) : (Bool × Str) × SysState :=
  match replaceFirst repo.display (toggledLine repo.display repo.enabled)
      (readAllLines st repo.file) with
  | none => ((false, lineNotFoundToggleMsg), st)
  | some lines => commitWrite repo.file lines env st

/-- First `Enabled:`-keyed line inside `[s, e]`, or `-1` (the scan inside
`toggleDeb822`). -/
def findEnabledLine (lines : List Str) (s e : Nat) : Int :=
  match (List.range' s (e + 1 - s)).find?
      (fun i => "Enabled:".toList.isPrefixOf (trimStr (lines.getD i []))) with
  | some i => (i : Int)
  | none => -1

/-- Insert at a position (`std::vector::insert(begin()+n, a)`). -/
def insertAt (n : Nat) (a : Str) (l : List Str) : List Str := l.take n ++ a :: l.drop n

/-- `toggleDeb822` from the source. -/
def toggleDeb822 (repo : RepoEntry) (env : Env) (st : SysState) : (Bool × Str) × SysState :=
  let allLines := readAllLines st repo.file
  let blocks := blockRanges allLines
  if repo.blockIndex < 0 || (blocks.length : Int) ≤ repo.blockIndex then
    ((false, blockRangeToggleMsg), st)
  else
    let b := blocks.getD repo.blockIndex.toNat (0, 0)
    let el := findEnabledLine allLines b.1 b.2
    let newVal : Str := if repo.enabled then "Enabled: no".toList else "Enabled: yes".toList
    let lines :=
      if 0 ≤ el then allLines.set el.toNat newVal else insertAt (b.1 + 1) newVal allLines
    commitWrite repo.file lines env st

/- ── SECTION 11: delete ─────────────────────────────────────────────── -/

/-- The first-match removal loop of the `.list` branch of
`deleteRepoClean`. -/
def removeFirst (display : Str) : List Str → Option (List Str)
  | [] => none
  | l :: ls =>
    if l = display then some ls
    else (removeFirst display ls).map (l :: ·)

/-- The index-skipping output loop of the deb822 branch: keep every line
whose index is outside `[s, e]`. -/
def skipRangeAux (s e : Nat) : Nat → List Str → List Str
  | _, [] => []
  | i, l :: ls =>
    if s ≤ i && i ≤ e then skipRangeAux s e (i + 1) ls
    else l :: skipRangeAux s e (i + 1) ls

/-- `deleteRepoClean` from the source. -/
def deleteRepoClean (repo : RepoEntry) (env : Env) (st : SysState) : (Bool × Str) × SysState :=
  let allLines := readAllLines st repo.file
  if !repo.isDeb822 then
    match removeFirst repo.display allLines with
    | none => ((false, lineNotFoundDeleteMsg), st)
    | some outLines => commitWrite repo.file outLines env st
  else
    let ranges := blockRanges allLines
    if repo.blockIndex < 0 || (ranges.length : Int) ≤ repo.blockIndex then
      ((false, blockRangeDeleteMsg), st)
    else
      let r := ranges.getD repo.blockIndex.toNat (0, 0)
      let bEnd :=
        if r.2 + 1 < allLines.length && (trimStr (allLines.getD (r.2 + 1) [])).isEmpty then
          r.2 + 1
        else r.2
      commitWrite repo.file (skipRangeAux r.1 bEnd 0 allLines) env st

/- ── SECTION 21 (F3): add ───────────────────────────────────────────── -/

/-- The F3 add handler of `main` after the input dialog: validate the
`deb` head before any I/O, then `pushUndo`, `backupFile` (result
ignored), and append the raw line plus a newline to the target file. -/
def addRepo (newLine dest : Str) (env : Env) (st : SysState) : (Bool × Str) × SysState :=
  if !("deb".toList.isPrefixOf newLine) then
    ((false, "Invalid - must start with deb.".toList), st)
  else
    let st1 := pushUndo dest st
    let st2 := (backupFile dest env st1).2
    if env.appendOk then
      let content := readBytes st2 dest
      ((true, "Repository added.".toList),
        { st2 with files := fsSet st2.files dest (content ++ newLine ++ ['\n']) })
    else ((false, "Cannot open dest".toList), st2)

/- ── SECTION 12: import ─────────────────────────────────────────────── -/

/-- `std::string::substr(pos)`: throws `std::out_of_range` when `pos`
exceeds the size. -/
def cppSubstr (s : Str) (pos : Nat) : Except Str Str :=
  if pos ≤ s.length then .ok (s.drop pos) else .error "std::out_of_range".toList

/-- The dedup scan of `importRepos`: for each existing display, test
whether `toLower(t.substr(4))` occurs in it; `t.substr(4)` is evaluated
inside the loop and may throw. -/
def dedupCheck (t : Str) : List Str → Except Str Bool
  | [] => .ok false
  | ex :: rest =>
    match cppSubstr t 4 with
    | .error e => .error e
    | .ok sub =>
      if hasSub (toLowerStr sub) (toLowerStr ex) then .ok true else dedupCheck t rest

/-- The line loop of `importRepos`: qualifying new lines are appended (in
append mode, i.e. raw bytes plus newline) to the main file as they are
found; an uncaught exception aborts the loop, keeping the appends made so
far. -/
def importLoop (existing : List Str) : List Str → Str → Nat → Except (Str × Str) (Str × Nat)
  | [], content, added => .ok (content, added)
  | line :: rest, content, added =>
    let t := trimStr line
    if t.isEmpty || cppIndex t 0 = '#' then importLoop existing rest content added
    else if !("deb".toList.isPrefixOf t) then importLoop existing rest content added
    else
      match dedupCheck t existing with
      | .error e => .error (e, content)
      | .ok dup =>
        if dup then importLoop existing rest content added
        else importLoop existing rest (content ++ t ++ ['\n']) (added + 1)

/-- `importRepos` from the source, over the trimmed displays of the loaded
entries, the import file's lines, and the main file's byte content.
`.error` means an exception escaped the function (the process is not
protected by any handler); `.ok` carries the status text and the new main
file content. -/
def importRepos (existing : List Str) (importLines : List Str) (mainContent : Str) :
    Except (Str × Str) (Str × Str) :=
  match importLoop existing importLines mainContent 0 with
  | .error (e, c) => .error (e, c)
  | .ok (c, added) =>
    if added = 0 then .ok ("No new repos found to import.".toList, c)
    else .ok ((Nat.repr added).toList ++ " repo(s) imported.".toList, c)

/- ── SECTION 13: metadata probe ─────────────────────────────────────── -/

/-- `RepoMeta` from the source. -/
structure RepoMeta where
  origin : Str := []
  codename : Str := []
  suite : Str := []
  version : Str := []
  date : Str := []
  description : Str := []
  lastUpdate : Str := []
  reachable : Bool := false
  error : Str := []
  deriving DecidableEq, Repr

/-- Index of the first occurrence of a needle (C++ `find`). -/
def findSubAux (needle : Str) : Str → Nat → Option Nat
  | [], i => if needle.isEmpty then some i else none
  | c :: rest, i =>
    if needle.isPrefixOf (c :: rest) then some i else findSubAux needle rest (i + 1)

/-- Strip a URI scheme: everything up to and including `"://"` when the
marker occurs. -/
def stripScheme (u : Str) : Str :=
  match findSubAux "://".toList u 0 with
  | some i => u.drop (i + 3)
  | none => u

/-- Replace every path separator with an underscore. -/
def slashToUnderscore (s : Str) : Str := s.map (fun c => if c = '/' then '_' else c)

/-- The apt cache Release path `metaFromCache` derives from an entry. -/
def cacheRelPath (repo : RepoEntry) : Str :=
  let host0 := slashToUnderscore (stripScheme repo.uri)
  let host := (host0.reverse.dropWhile (fun c => c = '_')).reverse
  let suite := slashToUnderscore repo.suite
  "/var/lib/apt/lists/".toList ++ host ++ "_dists_".toList ++ suite ++ "_Release".toList

/-- One line of the Release-file field scan in `metaFromCache`. -/
def releaseLine (m : RepoMeta) (line : Str) : RepoMeta :=
  if "Origin:".toList.isPrefixOf line then { m with origin := trimStr (line.drop 7) }
  else if "Codename:".toList.isPrefixOf line then { m with codename := trimStr (line.drop 9) }
  else if "Suite:".toList.isPrefixOf line then { m with suite := trimStr (line.drop 6) }
  else if "Version:".toList.isPrefixOf line then { m with version := trimStr (line.drop 8) }
  else if "Date:".toList.isPrefixOf line then { m with date := trimStr (line.drop 5) }
  else if "Description:".toList.isPrefixOf line then
    { m with description := trimStr (line.drop 12) }
  else m

/-- `metaFromCache` from the source. The local cache filesystem is an
association list from paths to line sequences (a present path both stats
and opens; an absent one does neither); `mtimeStr` stands for the
formatted modification time of the present file. -/
def metaFromCache (cacheFs : List (Str × List Str)) (mtimeStr : Str) (repo : RepoEntry) :
    RepoMeta :=
  if repo.uri.isEmpty || repo.suite.isEmpty then {}
  else
    let relPath := cacheRelPath repo
    match (cacheFs.find? (fun kv => kv.1 = relPath)).map (·.2) with
    | none => { lastUpdate := [], error := "Cache not found (run apt update)".toList }
    | some ls => ls.foldl releaseLine { lastUpdate := mtimeStr }

/-- The background unit of `fetchMetaAsync`: the cache lookup followed by
the reachability check, whose network outcome is the oracle `reach`. -/
def probeResult (cacheFs : List (Str × List Str)) (mtimeStr : Str) (reach : Bool)
    (repo : RepoEntry) : RepoMeta :=
  { metaFromCache cacheFs mtimeStr repo with reachable := reach }

/- ═══ helper lemmas ═══════════════════════════════════════════════════ -/

theorem fsGet_fsSet_self (fs : List (Str × Str)) (p b : Str) :
    fsGet (fsSet fs p b) p = some b := by
  induction fs with
  | nil => simp [fsGet, fsSet, List.find?]
  | cons kv rest ih =>
    by_cases h : kv.1 = p
    · simp [fsSet, h, fsGet, List.find?]
    · simpa [fsSet, h, fsGet, List.find?] using ih

theorem getLast?_append_single {α : Type} (l : List α) (a : α) :
    (l ++ [a]).getLast? = some a := by
  induction l with
  | nil => rfl
  | cons x xs ih =>
    cases h : xs ++ [a] with
    | nil => simp at h
    | cons y ys => rw [List.cons_append, h, List.getLast?_cons_cons, ← h, ih]

theorem dropLast_append_single {α : Type} (l : List α) (a : α) :
    (l ++ [a]).dropLast = l := by
  simp

/-- The head surviving a `dropWhile` fails the predicate. -/
theorem dropWhile_head_false {α : Type} (p : α → Bool) (l : List α) (c : α) (t : List α)
    (h : l.dropWhile p = c :: t) : p c = false := by
  induction l with
  | nil => simp at h
  | cons a as ih =>
    rw [List.dropWhile_cons] at h
    by_cases hp : p a
    · exact ih (by simpa [hp] using h)
    · obtain ⟨rfl, -⟩ := by simpa [hp] using h
      simpa using hp

theorem dropWhile_idem {α : Type} (p : α → Bool) (l : List α) :
    (l.dropWhile p).dropWhile p = l.dropWhile p := by
  induction l with
  | nil => rfl
  | cons a as ih =>
    rw [List.dropWhile_cons]
    by_cases hp : p a
    · simpa [hp] using ih
    · simp [hp, List.dropWhile_cons]

theorem dropWhile_append_of_head_false {α : Type} (p : α → Bool) (c : α) (t r : List α)
    (hc : p c = false) : (c :: t ++ r).dropWhile p = c :: t ++ r := by
  simp [List.dropWhile_cons, hc]

/-- A trimmed nonempty string keeps itself when wrapped as `"# " ++ ·`. -/
theorem trimStr_hash_space (d : Str) (h : trimStr d = d) (hne : d ≠ []) :
    trimStr ('#' :: ' ' :: d) = '#' :: ' ' :: d := by
  have hleft : trimLeft ('#' :: ' ' :: d) = '#' :: ' ' :: d := by
    simp [trimLeft, List.dropWhile_cons, isSp]
  have hrevfix : d.reverse.dropWhile isSp = d.reverse := by
    conv_lhs => rw [← h]
    have : (trimStr d).reverse = (trimLeft d).reverse.dropWhile isSp := by
      simp [trimStr, trimRight]
    rw [this, dropWhile_idem, ← this, h]
  obtain ⟨c, t, hct⟩ : ∃ c t, d.reverse = c :: t := by
    cases hd : d.reverse with
    | nil => exact absurd (by simpa using congrArg List.reverse hd) hne
    | cons c t => exact ⟨c, t, rfl⟩
  have hc : isSp c = false := by
    apply dropWhile_head_false isSp d.reverse c t
    rw [hrevfix, hct]
  unfold trimStr
  rw [hleft]
  show (('#' :: ' ' :: d).reverse.dropWhile isSp).reverse = '#' :: ' ' :: d
  have : ('#' :: ' ' :: d).reverse = c :: t ++ [' ', '#'] := by
    simp [hct]
  rw [this, dropWhile_append_of_head_false isSp c t [' ', '#'] hc, ← this]
  simp

/-- Dropping a leading whitespace character before trimming changes
nothing. -/
theorem trimStr_cons_sp (c : Char) (d : Str) (hc : isSp c = true) :
    trimStr (c :: d) = trimStr d := by
  simp [trimStr, trimLeft, List.dropWhile_cons, hc]

/- ── splitLines / linesToBytes ──────────────────────────────────────── -/

theorem splitLinesAux_no_newline (s : Str) (acc : Str) (hacc : '\n' ∉ acc) :
    ∀ l ∈ splitLinesAux s acc, '\n' ∉ l := by
  induction s generalizing acc with
  | nil =>
    intro l hl
    by_cases h : acc.isEmpty <;> simp [splitLinesAux, h] at hl
    subst hl; simpa using hacc
  | cons c rest ih =>
    intro l hl
    by_cases h : c = '\n'
    · subst h
      simp [splitLinesAux] at hl
      rcases hl with rfl | hl
      · simpa using hacc
      · exact ih [] (by simp) l hl
    · rw [splitLinesAux, if_neg h] at hl
      exact ih (c :: acc) (by simp [hacc, Ne.symm h]) l hl

theorem mem_splitLines_no_newline (b : Str) : ∀ l ∈ splitLines b, '\n' ∉ l :=
  splitLinesAux_no_newline b [] (by simp)

theorem splitLinesAux_append (l t acc : Str) (hl : '\n' ∉ l) :
    splitLinesAux (l ++ '\n' :: t) acc = (acc.reverse ++ l) :: splitLinesAux t [] := by
  induction l generalizing acc with
  | nil => simp [splitLinesAux]
  | cons c cs ih =>
    have hc : ¬ c = '\n' := by intro h; exact hl (h ▸ List.mem_cons_self c cs)
    rw [List.cons_append, splitLinesAux, if_neg hc,
      ih (c :: acc) (fun h => hl (List.mem_cons_of_mem c h))]
    simp

/-- The canonical round trip: a line sequence free of newline characters
is recovered exactly from the bytes `atomicWriteLines` writes. -/
theorem splitLines_linesToBytes (L : List Str) (h : ∀ l ∈ L, '\n' ∉ l) :
    splitLines (linesToBytes L) = L := by
  induction L with
  | nil => rfl
  | cons l ls ih =>
    rw [linesToBytes, splitLines, splitLinesAux_append l (linesToBytes ls) []
      (h l (List.mem_cons_self l ls))]
    simpa [splitLines] using ih (fun x hx => h x (List.mem_cons_of_mem l hx))

/- ── replaceFirst ───────────────────────────────────────────────────── -/

theorem replaceFirst_eq_none_iff (d n : Str) (ls : List Str) :
    replaceFirst d n ls = none ↔ d ∉ ls := by
  induction ls with
  | nil => simp [replaceFirst]
  | cons l t ih =>
    by_cases h : l = d
    · subst h; simp [replaceFirst]
    · simp [replaceFirst, h, Option.map_eq_none', ih, Ne.symm h]

theorem replaceFirst_split (d n : Str) (pre post : List Str) (hpre : d ∉ pre) :
    replaceFirst d n (pre ++ d :: post) = some (pre ++ n :: post) := by
  induction pre with
  | nil => simp [replaceFirst]
  | cons l t ih =>
    have hl : ¬ l = d := fun h => hpre (h ▸ List.mem_cons_self l t)
    simp [replaceFirst, hl, ih (fun h => hpre (List.mem_cons_of_mem l h))]

/-- Replacing `a` by `b` and then `b` by `a` restores the list, provided
`b` did not already occur. -/
theorem replaceFirst_roundtrip (a b : Str) (ls ls' : List Str) (hb : b ∉ ls)
    (h : replaceFirst a b ls = some ls') : replaceFirst b a ls' = some ls := by
  induction ls generalizing ls' with
  | nil => simp [replaceFirst] at h
  | cons l t ih =>
    by_cases hl : l = a
    · rw [replaceFirst, if_pos hl] at h
      obtain rfl := Option.some_injective _ h
      rw [replaceFirst, if_pos rfl, hl]
    · rw [replaceFirst, if_neg hl] at h
      obtain ⟨t', ht', rfl⟩ := Option.map_eq_some'.mp h
      have hlb : ¬ l = b := fun h => hb (h ▸ List.mem_cons_self l t)
      rw [replaceFirst, if_neg hlb, ih t' (fun h => hb (List.mem_cons_of_mem l h)) ht']
      rfl

/- ── parseListFile facts ────────────────────────────────────────────── -/

theorem parseListFile_enabled_iff (path : Str) (lines : List Str) :
    ∀ e ∈ parseListFile path lines,
      e.enabled = false ↔ (trimStr e.display).take 1 = ['#'] := by
  induction lines with
  | nil => intro e he; simp [parseListFile] at he
  | cons line rest ih =>
    intro e he
    rw [parseListFile] at he
    dsimp only at he
    by_cases h1 : (trimStr line).isEmpty = true
    · rw [if_pos h1] at he; exact ih e he
    · rw [if_neg h1] at he
      by_cases h2 : (!("deb".toList.isPrefixOf (trimStr line)) &&
          !(decide (cppIndex (trimStr line) 0 = '#') &&
            "deb".toList.isPrefixOf (trimStr (List.drop 1 (trimStr line))))) = true
      · rw [if_pos h2] at he; exact ih e he
      · rw [if_neg h2] at he
        rcases List.mem_cons.mp he with rfl | hmem
        · obtain ⟨c, t, hct⟩ : ∃ c t, trimStr line = c :: t := by
            cases h : trimStr line with
            | nil => rw [h] at h1; simp at h1
            | cons c t => exact ⟨c, t, rfl⟩
          show (!decide (cppIndex (trimStr line) 0 = '#')) = false ↔
            (trimStr line).take 1 = ['#']
          rw [hct]
          show (!decide (cppIndex (c :: t) 0 = '#')) = false ↔ (c :: t).take 1 = ['#']
          have hcpp : cppIndex (c :: t) 0 = c := rfl
          rw [hcpp]
          constructor
          · intro h
            have : c = '#' := of_decide_eq_true (by simpa using h)
            simp [this]
          · intro h
            have : c = '#' := by simpa using h
            simp [this]
        · exact ih e hmem

/-- Every occurrence of a qualifying line yields an entry whose display is
the raw line. -/
theorem parseListFile_mem (path : Str) (lines : List Str) (line : Str)
    (hmem : line ∈ lines)
    (h1 : (trimStr line).isEmpty = false)
    (h2 : ("deb".toList.isPrefixOf (trimStr line) ||
        (decide (cppIndex (trimStr line) 0 = '#') &&
          "deb".toList.isPrefixOf (trimStr ((trimStr line).drop 1)))) = true) :
    ∃ e ∈ parseListFile path lines,
      e.display = line ∧ e.enabled = !(decide (cppIndex (trimStr line) 0 = '#')) := by
  induction lines with
  | nil => simp at hmem
  | cons l rest ih =>
    rcases List.mem_cons.mp hmem with rfl | hmem'
    · rw [parseListFile]
      dsimp only
      rw [if_neg (by rw [h1]; simp)]
      have hg : ¬ ((!("deb".toList.isPrefixOf (trimStr line)) &&
          !(decide (cppIndex (trimStr line) 0 = '#') &&
            "deb".toList.isPrefixOf (trimStr (List.drop 1 (trimStr line))))) = true) := by
        intro hg'
        rw [Bool.and_eq_true, Bool.not_eq_true', Bool.not_eq_true'] at hg'
        rw [hg'.1, hg'.2] at h2
        simp at h2
      rw [if_neg hg]
      exact ⟨_, List.mem_cons_self _ _, rfl, rfl⟩
    · obtain ⟨e, he, hd, hen⟩ := ih hmem'
      refine ⟨e, ?_, hd, hen⟩
      rw [parseListFile]
      dsimp only
      by_cases ha : (trimStr l).isEmpty = true
      · rw [if_pos ha]; exact he
      · rw [if_neg ha]
        by_cases hb : (!("deb".toList.isPrefixOf (trimStr l)) &&
            !(decide (cppIndex (trimStr l) 0 = '#') &&
              "deb".toList.isPrefixOf (trimStr (List.drop 1 (trimStr l))))) = true
        · rw [if_pos hb]; exact he
        · rw [if_neg hb]; exact List.mem_cons_of_mem _ he

/- ═══ Claim theorems ══════════════════════════════════════════════════ -/

/-- Claim C7: for every entry produced by the one-line parser,
`enabled = false` holds iff the entry's display text, after trimming
surrounding whitespace, begins with the character `#`. -/
theorem oneLine_enabled_iff_not_hash (path : Str) (lines : List Str) (e : RepoEntry)
    (he : e ∈ parseListFile path lines) :
    e.enabled = false ↔ (trimStr e.display).take 1 = ['#'] :=
  parseListFile_enabled_iff path lines e he

/-- Concrete disabled one-line entry used by the C7 witness. -/
def w7entry : RepoEntry :=
  ⟨"f".toList, "# deb http://a b".toList, false, false, -1, "http://a".toList,
    "b".toList, [], "deb".toList⟩

/-- Witness for C7 on a concrete disabled line. -/
theorem oneLine_enabled_iff_not_hash_witness :
    w7entry ∈ parseListFile "f".toList ["# deb http://a b".toList] ∧
    (w7entry.enabled = false ↔ (trimStr w7entry.display).take 1 = ['#']) :=
  ⟨by decide, oneLine_enabled_iff_not_hash "f".toList ["# deb http://a b".toList] w7entry
    (by decide)⟩

/-- `commitWrite` never reports a message other than `ioErrMsg` alongside
`false`. -/
theorem commitWrite_fst_ne (p : Str) (L : List Str) (env : Env) (st : SysState)
    (msg : Str) (hmsg : msg ≠ ioErrMsg) : (commitWrite p L env st).1 ≠ (false, msg) := by
  unfold commitWrite atomicWriteLines
  dsimp only
  cases hw : env.writeOk with
  | true => simp [hw]
  | false =>
    intro h
    apply hmsg
    have h2 := congrArg Prod.snd h
    simpa using h2.symm

/-- Claim C9: a toggle or delete that fails with its NotFound condition
returns before any snapshot, backup, or write: the files, the undo stack
and the backup directory are all left exactly as they were. -/
theorem notFound_leaves_state_unchanged (repo : RepoEntry) (env : Env) (st : SysState) :
    ((toggleList repo env st).1 = (false, lineNotFoundToggleMsg) →
      (toggleList repo env st).2 = st) ∧
    ((toggleDeb822 repo env st).1 = (false, blockRangeToggleMsg) →
      (toggleDeb822 repo env st).2 = st) ∧
    ((deleteRepoClean repo env st).1 = (false, lineNotFoundDeleteMsg) ∨
        (deleteRepoClean repo env st).1 = (false, blockRangeDeleteMsg) →
      (deleteRepoClean repo env st).2 = st) := by
  refine ⟨?_, ?_, ?_⟩
  · unfold toggleList
    cases h : replaceFirst repo.display (toggledLine repo.display repo.enabled)
        (readAllLines st repo.file) with
    | none => intro; rfl
    | some lines =>
      intro hc
      exact absurd hc (commitWrite_fst_ne _ _ _ _ _ (by decide))
  · unfold toggleDeb822
    dsimp only
    by_cases h : (repo.blockIndex < 0 ||
        ((blockRanges (readAllLines st repo.file)).length : Int) ≤ repo.blockIndex) = true
    · rw [if_pos h]; exact fun _ => rfl
    · rw [if_neg h]
      intro hc
      exact absurd hc (commitWrite_fst_ne _ _ _ _ _ (by decide))
  · unfold deleteRepoClean
    dsimp only
    by_cases hd : repo.isDeb822 = true
    · rw [if_neg (by simp [hd])]
      by_cases h : (repo.blockIndex < 0 ||
          ((blockRanges (readAllLines st repo.file)).length : Int) ≤ repo.blockIndex) = true
      · rw [if_pos h]; exact fun _ => rfl
      · rw [if_neg h]
        rintro (hc | hc) <;>
          exact absurd hc (commitWrite_fst_ne _ _ _ _ _ (by decide))
    · rw [if_pos (by simp [Bool.eq_false_iff.mpr hd])]
      cases h : removeFirst repo.display (readAllLines st repo.file) with
      | none => exact fun _ => rfl
      | some outLines =>
        rintro (hc | hc) <;>
          exact absurd hc (commitWrite_fst_ne _ _ _ _ _ (by decide))

/-- Witness for C9: a toggle whose display line is absent changes
nothing. -/
theorem notFound_leaves_state_unchanged_witness :
    (toggleList
        (⟨"f".toList, "deb absent".toList, true, false, -1, [], [], [], []⟩ : RepoEntry)
        ⟨true, true, true⟩
        ⟨[("f".toList, "deb other\n".toList)], [], []⟩).1
      = (false, lineNotFoundToggleMsg) ∧
    (toggleList
        (⟨"f".toList, "deb absent".toList, true, false, -1, [], [], [], []⟩ : RepoEntry)
        ⟨true, true, true⟩
        ⟨[("f".toList, "deb other\n".toList)], [], []⟩).2
      = ⟨[("f".toList, "deb other\n".toList)], [], []⟩ :=
  ⟨by decide,
    (notFound_leaves_state_unchanged _ _ _).1 (by decide)⟩

/-- Claim C10: `applyUndo` pops the top snapshot only after its write
succeeds; an IOError write leaves the stack (and the files) unchanged, so
undo can be retried. -/
theorem applyUndo_pops_only_on_success (env : Env) (st : SysState)
    (hne : st.undoStack ≠ []) :
    (env.writeOk = false → applyUndo env st = ((false, ioErrMsg), st)) ∧
    (env.writeOk = true →
      ((applyUndo env st).1.1 = true ∧
        (applyUndo env st).2.undoStack = st.undoStack.dropLast)) := by
  obtain ⟨L, x, hLx⟩ : ∃ L x, st.undoStack = L ++ [x] := by
    rcases List.eq_nil_or_concat st.undoStack with h | ⟨L, x, h⟩
    · exact absurd h hne
    · exact ⟨L, x, by simpa using h⟩
  have hlast : st.undoStack.getLast? = some x := by
    rw [hLx]; exact getLast?_append_single L x
  constructor
  · intro hw
    unfold applyUndo
    rw [hlast]
    simp [atomicWriteLines, hw]
  · intro hw
    unfold applyUndo
    rw [hlast]
    simp [atomicWriteLines, hw]

/-- Witness for C10: with one snapshot on the stack and a failing write,
the state survives untouched. -/
theorem applyUndo_pops_only_on_success_witness :
    (⟨[("f".toList, "x\n".toList)], [⟨"f".toList, ["y".toList]⟩], []⟩ : SysState).undoStack
      ≠ [] ∧
    applyUndo ⟨false, true, true⟩
        ⟨[("f".toList, "x\n".toList)], [⟨"f".toList, ["y".toList]⟩], []⟩
      = ((false, ioErrMsg),
          ⟨[("f".toList, "x\n".toList)], [⟨"f".toList, ["y".toList]⟩], []⟩) :=
  ⟨by decide,
    (applyUndo_pops_only_on_success ⟨false, true, true⟩
      ⟨[("f".toList, "x\n".toList)], [⟨"f".toList, ["y".toList]⟩], []⟩ (by decide)).1 rfl⟩

/- ── write-pipeline characterizations ──────────────────────────────── -/

/-- All-success environment fixture. -/
def envAll : Env := ⟨true, true, true⟩

theorem backupFile_preserves (p : Str) (env : Env) (st : SysState) :
    (backupFile p env st).2.files = st.files ∧
    (backupFile p env st).2.undoStack = st.undoStack := by
  unfold backupFile
  by_cases hb : env.backupOk = true
  · rw [if_pos hb]
    cases fsGet st.files p <;> exact ⟨rfl, rfl⟩
  · rw [if_neg hb]; exact ⟨rfl, rfl⟩

/-- What a successful `commitWrite` leaves behind. -/
theorem commitWrite_snd (p : Str) (L : List Str) (env : Env) (st : SysState)
    (hw : env.writeOk = true) :
    (commitWrite p L env st).2 =
      { files := fsSet (backupFile p env (pushUndo p st)).2.files p (linesToBytes L)
        undoStack := (backupFile p env (pushUndo p st)).2.undoStack
        backups := (backupFile p env (pushUndo p st)).2.backups } := by
  unfold commitWrite atomicWriteLines
  rw [hw]
  rfl

/-- What a successful `applyUndo` leaves behind, given the top
snapshot. -/
theorem applyUndo_snd_of_getLast (env : Env) (st : SysState) (u : UndoEntry)
    (hw : env.writeOk = true) (hlast : st.undoStack.getLast? = some u) :
    (applyUndo env st).2 =
      { files := fsSet st.files u.file (linesToBytes u.lines)
        undoStack := st.undoStack.dropLast
        backups := st.backups } := by
  unfold applyUndo atomicWriteLines
  rw [hlast, hw]
  rfl

/-- Undoing right after a `commitWrite` rewrites the file with the bytes
of its pre-mutation line sequence. -/
theorem commitWrite_then_undo (p : Str) (L : List Str) (env : Env) (st : SysState)
    (hw : env.writeOk = true)
    (hcanon : linesToBytes (splitLines (readBytes st p)) = readBytes st p) :
    readBytes (applyUndo env (commitWrite p L env st).2).2 p = readBytes st p := by
  have h1 := commitWrite_snd p L env st hw
  have hlast : (commitWrite p L env st).2.undoStack.getLast?
      = some ⟨p, readAllLines st p⟩ := by
    rw [h1]
    show (backupFile p env (pushUndo p st)).2.undoStack.getLast? = _
    rw [(backupFile_preserves p env (pushUndo p st)).2]
    exact getLast?_append_single _ _
  rw [applyUndo_snd_of_getLast env _ _ hw hlast]
  unfold readBytes
  dsimp only
  rw [fsGet_fsSet_self]
  show (some (linesToBytes (splitLines (readBytes st p)))).getD [] = _
  rw [hcanon]
  rfl

/-- Claim C3 counterexample: after toggling an entry stored in a file
whose content does not end with a newline, `undo` rewrites the file with
a trailing newline added — the restored content is not byte-identical to
the pre-mutation content, although the mutation succeeded. -/
theorem undo_after_toggle_not_byte_identical :
    (toggleList ⟨"g".toList, "deb a b".toList, true, false, -1, [], [], [], []⟩ envAll
        ⟨[("g".toList, "deb a b".toList)], [], []⟩).1.1 = true ∧
    readBytes (applyUndo envAll
        (toggleList ⟨"g".toList, "deb a b".toList, true, false, -1, [], [], [], []⟩ envAll
          ⟨[("g".toList, "deb a b".toList)], [], []⟩).2).2 "g".toList
      = "deb a b\n".toList ∧
    readBytes (applyUndo envAll
        (toggleList ⟨"g".toList, "deb a b".toList, true, false, -1, [], [], [], []⟩ envAll
          ⟨[("g".toList, "deb a b".toList)], [], []⟩).2).2 "g".toList
      ≠ "deb a b".toList := by
  refine ⟨by decide, by decide, by decide⟩

/-- Claim C3 (amended): when the pre-mutation content is the canonical
rendering of its own line sequence (empty, or newline-terminated), `undo`
invoked after one successful mutation (toggle, delete, or add) restores
the mutated file byte-identically; `undo` on an empty stack fails with
the "nothing to undo" condition and performs no I/O at all. -/
theorem undo_restores_after_single_mutation (repo : RepoEntry) (newLine dest : Str)
    (env : Env) (st : SysState) (hw : env.writeOk = true) :
    (linesToBytes (splitLines (readBytes st repo.file)) = readBytes st repo.file →
      (((toggleList repo env st).1.1 = true →
          readBytes (applyUndo env (toggleList repo env st).2).2 repo.file
            = readBytes st repo.file) ∧
        ((toggleDeb822 repo env st).1.1 = true →
          readBytes (applyUndo env (toggleDeb822 repo env st).2).2 repo.file
            = readBytes st repo.file) ∧
        ((deleteRepoClean repo env st).1.1 = true →
          readBytes (applyUndo env (deleteRepoClean repo env st).2).2 repo.file
            = readBytes st repo.file))) ∧
    (linesToBytes (splitLines (readBytes st dest)) = readBytes st dest →
      ((addRepo newLine dest env st).1.1 = true →
        readBytes (applyUndo env (addRepo newLine dest env st).2).2 dest
          = readBytes st dest)) ∧
    (st.undoStack = [] → applyUndo env st = ((false, nothingToUndoMsg), st)) := by
  refine ⟨?_, ?_, ?_⟩
  · intro hcanon
    refine ⟨?_, ?_, ?_⟩
    · intro hsucc
      unfold toggleList at hsucc ⊢
      cases hrep : replaceFirst repo.display (toggledLine repo.display repo.enabled)
          (readAllLines st repo.file) with
      | none => rw [hrep] at hsucc; exact Bool.noConfusion hsucc
      | some L => exact commitWrite_then_undo repo.file L env st hw hcanon
    · intro hsucc
      unfold toggleDeb822 at hsucc ⊢
      dsimp only at hsucc ⊢
      by_cases h : (repo.blockIndex < 0 ||
          ((blockRanges (readAllLines st repo.file)).length : Int) ≤ repo.blockIndex)
            = true
      · rw [if_pos h] at hsucc; exact Bool.noConfusion hsucc
      · rw [if_neg h] at hsucc ⊢
        exact commitWrite_then_undo repo.file _ env st hw hcanon
    · intro hsucc
      unfold deleteRepoClean at hsucc ⊢
      dsimp only at hsucc ⊢
      by_cases hd : (!repo.isDeb822) = true
      · rw [if_pos hd] at hsucc ⊢
        cases hrep : removeFirst repo.display (readAllLines st repo.file) with
        | none => rw [hrep] at hsucc; exact Bool.noConfusion hsucc
        | some L => exact commitWrite_then_undo repo.file L env st hw hcanon
      · rw [if_neg hd] at hsucc ⊢
        by_cases h : (repo.blockIndex < 0 ||
            ((blockRanges (readAllLines st repo.file)).length : Int) ≤ repo.blockIndex)
              = true
        · rw [if_pos h] at hsucc; exact Bool.noConfusion hsucc
        · rw [if_neg h] at hsucc ⊢
          exact commitWrite_then_undo repo.file _ env st hw hcanon
  · intro hcanon hsucc
    unfold addRepo at hsucc ⊢
    dsimp only at hsucc ⊢
    by_cases hdeb : (!("deb".toList.isPrefixOf newLine)) = true
    · rw [if_pos hdeb] at hsucc; exact Bool.noConfusion hsucc
    · rw [if_neg hdeb] at hsucc ⊢
      by_cases happ : env.appendOk = true
      · rw [if_pos happ] at hsucc ⊢
        have hlast : ({ (backupFile dest env (pushUndo dest st)).2 with
            files := fsSet (backupFile dest env (pushUndo dest st)).2.files dest
              (readBytes (backupFile dest env (pushUndo dest st)).2 dest ++ newLine
                ++ ['\n']) } : SysState).undoStack.getLast?
              = some ⟨dest, readAllLines st dest⟩ := by
          show (backupFile dest env (pushUndo dest st)).2.undoStack.getLast? = _
          rw [(backupFile_preserves dest env (pushUndo dest st)).2]
          exact getLast?_append_single _ _
        rw [applyUndo_snd_of_getLast env _ _ hw hlast]
        unfold readBytes
        dsimp only
        rw [fsGet_fsSet_self]
        show (some (linesToBytes (splitLines (readBytes st dest)))).getD [] = _
        rw [hcanon]
        rfl
      · rw [if_neg happ] at hsucc; exact Bool.noConfusion hsucc
  · intro hempty
    unfold applyUndo
    rw [hempty]
    rfl

/-- Witness for the amended C3 at a concrete canonical file. -/
theorem undo_restores_after_single_mutation_witness :
    linesToBytes (splitLines (readBytes ⟨[("f".toList, "deb a b\n".toList)], [], []⟩
        "f".toList)) = readBytes ⟨[("f".toList, "deb a b\n".toList)], [], []⟩ "f".toList ∧
    (toggleList ⟨"f".toList, "deb a b".toList, true, false, -1, [], [], [], []⟩ envAll
        ⟨[("f".toList, "deb a b\n".toList)], [], []⟩).1.1 = true ∧
    readBytes (applyUndo envAll
        (toggleList ⟨"f".toList, "deb a b".toList, true, false, -1, [], [], [], []⟩ envAll
          ⟨[("f".toList, "deb a b\n".toList)], [], []⟩).2).2 "f".toList
      = readBytes ⟨[("f".toList, "deb a b\n".toList)], [], []⟩ "f".toList :=
  ⟨by decide, by decide,
    ((undo_restores_after_single_mutation
        ⟨"f".toList, "deb a b".toList, true, false, -1, [], [], [], []⟩ [] []
        envAll ⟨[("f".toList, "deb a b\n".toList)], [], []⟩ rfl).1
      (by decide)).1 (by decide)⟩

/- ── C4: write mechanism ───────────────────────────────────────────── -/

theorem commitWrite_files_of_writeOk (p : Str) (L : List Str) (env : Env) (st : SysState)
    (hw : env.writeOk = true) :
    (commitWrite p L env st).2.files = fsSet st.files p (linesToBytes L) := by
  rw [commitWrite_snd p L env st hw]
  show fsSet (backupFile p env (pushUndo p st)).2.files p (linesToBytes L) = _
  rw [(backupFile_preserves p env (pushUndo p st)).1]
  rfl

theorem commitWrite_files_cases (p : Str) (L : List Str) (env : Env) (st : SysState) :
    (commitWrite p L env st).2.files = st.files ∨
    (commitWrite p L env st).2.files = fsSet st.files p (linesToBytes L) := by
  cases hw : env.writeOk with
  | true => exact Or.inr (commitWrite_files_of_writeOk p L env st hw)
  | false =>
    left
    unfold commitWrite atomicWriteLines
    rw [hw]
    show (backupFile p env (pushUndo p st)).2.files = st.files
    rw [(backupFile_preserves p env (pushUndo p st)).1]
    rfl

/-- Claim C4 counterexample: the F3 add handler appends raw bytes in
append mode instead of writing the complete line sequence through the
temp-and-rename path; on a file lacking a final newline the result
is neither the untouched original nor the rendering of the complete line
sequence (the appended line merges into the last line). -/
theorem add_appends_instead_of_atomic_rewrite :
    readBytes (addRepo "deb c d".toList "g".toList envAll
        ⟨[("g".toList, "deb a b".toList)], [], []⟩).2 "g".toList
      = "deb a bdeb c d\n".toList ∧
    readBytes (addRepo "deb c d".toList "g".toList envAll
        ⟨[("g".toList, "deb a b".toList)], [], []⟩).2 "g".toList
      ≠ "deb a b".toList ∧
    readBytes (addRepo "deb c d".toList "g".toList envAll
        ⟨[("g".toList, "deb a b".toList)], [], []⟩).2 "g".toList
      ≠ linesToBytes (splitLines "deb a b".toList ++ ["deb c d".toList]) := by
  refine ⟨by decide, by decide, by decide⟩

/-- Claim C4 (amended): toggle, delete and undo produce new content only
through `atomicWriteLines` — the target file is either left completely
untouched or fully replaced with the newline-terminated rendering of a
complete line sequence; add (and import) instead append raw bytes
directly. -/
theorem toggle_delete_undo_atomic (repo : RepoEntry) (env : Env) (st : SysState) :
    ((toggleList repo env st).2.files = st.files ∨
      ∃ L, (toggleList repo env st).2.files = fsSet st.files repo.file (linesToBytes L)) ∧
    ((toggleDeb822 repo env st).2.files = st.files ∨
      ∃ L, (toggleDeb822 repo env st).2.files = fsSet st.files repo.file (linesToBytes L)) ∧
    ((deleteRepoClean repo env st).2.files = st.files ∨
      ∃ L, (deleteRepoClean repo env st).2.files
        = fsSet st.files repo.file (linesToBytes L)) ∧
    ((applyUndo env st).2.files = st.files ∨
      ∃ u, st.undoStack.getLast? = some u ∧
        (applyUndo env st).2.files = fsSet st.files u.file (linesToBytes u.lines)) := by
  refine ⟨?_, ?_, ?_, ?_⟩
  · unfold toggleList
    cases replaceFirst repo.display (toggledLine repo.display repo.enabled)
        (readAllLines st repo.file) with
    | none => exact Or.inl rfl
    | some L =>
      rcases commitWrite_files_cases repo.file L env st with h | h
      · exact Or.inl h
      · exact Or.inr ⟨L, h⟩
  · unfold toggleDeb822
    dsimp only
    by_cases h : (repo.blockIndex < 0 ||
        ((blockRanges (readAllLines st repo.file)).length : Int) ≤ repo.blockIndex) = true
    · rw [if_pos h]; exact Or.inl rfl
    · rw [if_neg h]
      rcases commitWrite_files_cases repo.file _ env st with h2 | h2
      · exact Or.inl h2
      · exact Or.inr ⟨_, h2⟩
  · unfold deleteRepoClean
    dsimp only
    by_cases hd : (!repo.isDeb822) = true
    · rw [if_pos hd]
      cases removeFirst repo.display (readAllLines st repo.file) with
      | none => exact Or.inl rfl
      | some L =>
        rcases commitWrite_files_cases repo.file L env st with h | h
        · exact Or.inl h
        · exact Or.inr ⟨L, h⟩
    · rw [if_neg hd]
      by_cases h : (repo.blockIndex < 0 ||
          ((blockRanges (readAllLines st repo.file)).length : Int) ≤ repo.blockIndex)
            = true
      · rw [if_pos h]; exact Or.inl rfl
      · rw [if_neg h]
        rcases commitWrite_files_cases repo.file _ env st with h2 | h2
        · exact Or.inl h2
        · exact Or.inr ⟨_, h2⟩
  · cases hlast : st.undoStack.getLast? with
    | none =>
      left
      unfold applyUndo
      rw [hlast]
    | some u =>
      cases hw : env.writeOk with
      | false =>
        left
        unfold applyUndo atomicWriteLines
        rw [hlast, hw]
        rfl
      | true =>
        right
        refine ⟨u, rfl, ?_⟩
        rw [applyUndo_snd_of_getLast env st u hw hlast]

/- ── C5: importRepos std::out_of_range ─────────────────────────────── -/

/-- Claim C5: `importRepos` on an import file containing a line whose
trimmed text is exactly `deb` (with at least one loaded entry to dedup
against) evaluates `t.substr(4)` with `4 > t.size()`, so
`std::out_of_range` escapes the function uncaught — the operation does
not return normally with a status message. -/
theorem importRepos_throws_on_bare_deb :
    importRepos ["deb http://x y".toList] ["deb".toList] []
      = .error ("std::out_of_range".toList, []) := by
  rfl

/- ── C6: toggleList strip behaviour ────────────────────────────────── -/

/-- Claim C6 counterexample: toggling a disabled one-line entry whose
stored line carries trailing whitespace does not leave "the rest of the
line unchanged": the source trims the remainder after stripping, so the
trailing space is lost. The entry is exactly what the parser loads from
that file. -/
theorem toggle_disabled_trims_remainder :
    (⟨"f".toList, "# deb a b ".toList, false, false, -1, "a".toList, "b".toList, [],
        "deb".toList⟩ : RepoEntry) ∈
      parseListFile "f".toList (splitLines "# deb a b \n".toList) ∧
    readBytes (toggleList
        (⟨"f".toList, "# deb a b ".toList, false, false, -1, "a".toList, "b".toList, [],
          "deb".toList⟩ : RepoEntry) envAll
        ⟨[("f".toList, "# deb a b \n".toList)], [], []⟩).2 "f".toList
      = linesToBytes ["deb a b".toList] ∧
    readBytes (toggleList
        (⟨"f".toList, "# deb a b ".toList, false, false, -1, "a".toList, "b".toList, [],
          "deb".toList⟩ : RepoEntry) envAll
        ⟨[("f".toList, "# deb a b \n".toList)], [], []⟩).2 "f".toList
      ≠ linesToBytes ["deb a b ".toList] := by
  refine ⟨by decide, by decide, by decide⟩

/-- Claim C6 (amended): `toggleList` fails with NotFound exactly when no
line of the freshly-read file equals the display text; otherwise it
rewrites the first such line — prefixing `"# "` when the entry is
enabled, and when it is disabled stripping the first character (two when
the second is a space; for lines beginning `#` this strips one `#` plus
at most one following space) and then trimming surrounding whitespace
from the remainder. -/
theorem toggleList_first_match_rewrite (repo : RepoEntry) (env : Env) (st : SysState)
    (pre post : List Str) :
    (repo.display ∉ readAllLines st repo.file →
      toggleList repo env st = ((false, lineNotFoundToggleMsg), st)) ∧
    (readAllLines st repo.file = pre ++ repo.display :: post → repo.display ∉ pre →
      env.writeOk = true →
      readBytes (toggleList repo env st).2 repo.file
        = linesToBytes (pre ++
            (if repo.enabled = true then '#' :: ' ' :: repo.display
              else trimStr (repo.display.drop
                (if cppIndex repo.display 1 = ' ' then 2 else 1))) :: post)) := by
  constructor
  · intro habs
    unfold toggleList
    rw [(replaceFirst_eq_none_iff repo.display
      (toggledLine repo.display repo.enabled) (readAllLines st repo.file)).mpr habs]
  · intro hsplit hpre hw
    unfold toggleList
    rw [hsplit, replaceFirst_split repo.display _ pre post hpre]
    show readBytes (commitWrite repo.file
      (pre ++ toggledLine repo.display repo.enabled :: post) env st).2 repo.file = _
    unfold readBytes
    rw [commitWrite_files_of_writeOk _ _ env st hw, fsGet_fsSet_self]
    rfl

/-- Witness for the amended C6: toggling an enabled entry in place. -/
theorem toggleList_first_match_rewrite_witness :
    readAllLines ⟨[("f".toList, "deb x y\ndeb a b\n".toList)], [], []⟩ "f".toList
      = ["deb x y".toList] ++ "deb a b".toList :: [] ∧
    readBytes (toggleList
        (⟨"f".toList, "deb a b".toList, true, false, -1, "a".toList, "b".toList, [],
          "deb".toList⟩ : RepoEntry) envAll
        ⟨[("f".toList, "deb x y\ndeb a b\n".toList)], [], []⟩).2 "f".toList
      = linesToBytes (["deb x y".toList] ++
          (if (⟨"f".toList, "deb a b".toList, true, false, -1, "a".toList, "b".toList,
              [], "deb".toList⟩ : RepoEntry).enabled = true then
            '#' :: ' ' :: "deb a b".toList
          else trimStr ("deb a b".toList.drop
            (if cppIndex "deb a b".toList 1 = ' ' then 2 else 1))) :: []) :=
  ⟨by decide,
    (toggleList_first_match_rewrite
      ⟨"f".toList, "deb a b".toList, true, false, -1, "a".toList, "b".toList, [],
        "deb".toList⟩ envAll ⟨[("f".toList, "deb x y\ndeb a b\n".toList)], [], []⟩
      ["deb x y".toList] []).2 (by decide) (by decide) rfl⟩

/- ── C8: probe error population ────────────────────────────────────── -/

theorem releaseLine_error (m : RepoMeta) (line : Str) :
    (releaseLine m line).error = m.error := by
  unfold releaseLine
  split_ifs <;> rfl

theorem foldl_releaseLine_error (ls : List Str) (m : RepoMeta) :
    (ls.foldl releaseLine m).error = m.error := by
  induction ls generalizing m with
  | nil => rfl
  | cons l t ih => rw [List.foldl_cons, ih, releaseLine_error]

/-- Claim C8 counterexample: a loadable entry with an empty URI (the
parser emits one for the bare line `deb`) gets no error from the probe
even though its cache file cannot be opened — the cache lookup is skipped
entirely, so "error populated exactly when the cache file cannot be
opened" fails. -/
theorem probe_empty_uri_breaks_error_iff :
    (⟨"f".toList, "deb".toList, true, false, -1, [], [], [], "deb".toList⟩ : RepoEntry) ∈
      parseListFile "f".toList ["deb".toList] ∧
    ¬ (((probeResult [] [] true
          (⟨"f".toList, "deb".toList, true, false, -1, [], [], [], "deb".toList⟩ :
            RepoEntry)).error ≠ []) ↔
        (([] : List (Str × List Str)).find? (fun kv => kv.1 = cacheRelPath
          (⟨"f".toList, "deb".toList, true, false, -1, [], [], [], "deb".toList⟩ :
            RepoEntry)) = none)) := by
  refine ⟨by decide, by decide⟩

/-- Claim C8 (amended): in every ProbeResult, `reachable` is exactly the
outcome of the network reachability check, independent of the cache; and
`error` is populated exactly when the entry has a nonempty uri and suite
and the derived cache file cannot be opened. -/
theorem probe_error_iff_cache_unopenable (cacheFs : List (Str × List Str)) (mt : Str)
    (reach : Bool) (repo : RepoEntry) :
    (probeResult cacheFs mt reach repo).reachable = reach ∧
    ((probeResult cacheFs mt reach repo).error ≠ [] ↔
      (repo.uri.isEmpty = false ∧ repo.suite.isEmpty = false ∧
        cacheFs.find? (fun kv => kv.1 = cacheRelPath repo) = none)) := by
  refine ⟨rfl, ?_⟩
  show (metaFromCache cacheFs mt repo).error ≠ [] ↔ _
  unfold metaFromCache
  by_cases h0 : (repo.uri.isEmpty || repo.suite.isEmpty) = true
  · rw [if_pos h0]
    constructor
    · intro h; exact absurd rfl h
    · rintro ⟨h1, h2, -⟩
      rcases Bool.or_eq_true_iff.mp h0 with h | h
      · rw [h1] at h; exact Bool.noConfusion h
      · rw [h2] at h; exact Bool.noConfusion h
  · rw [if_neg h0]
    have h1 : repo.uri.isEmpty = false := by
      rcases Bool.or_eq_false_iff.mp (Bool.eq_false_iff.mpr h0 :
        (repo.uri.isEmpty || repo.suite.isEmpty) = false) with ⟨ha, _⟩
      exact ha
    have h2 : repo.suite.isEmpty = false := by
      rcases Bool.or_eq_false_iff.mp (Bool.eq_false_iff.mpr h0 :
        (repo.uri.isEmpty || repo.suite.isEmpty) = false) with ⟨_, hb⟩
      exact hb
    dsimp only
    cases hfind : (cacheFs.find? (fun kv => kv.1 = cacheRelPath repo)) with
    | none =>
      dsimp only [Option.map]
      constructor
      · intro _; exact ⟨h1, h2, rfl⟩
      · intro _; decide
    | some kv =>
      dsimp only [Option.map]
      rw [foldl_releaseLine_error]
      constructor
      · intro h; exact absurd rfl h
      · rintro ⟨-, -, hnone⟩
        exact Option.noConfusion hnone

/- ── C2: double toggle round trip ──────────────────────────────────── -/

theorem commitWrite_succeeds (p : Str) (L : List Str) (env : Env) (st : SysState)
    (hw : env.writeOk = true) : (commitWrite p L env st).1.1 = true := by
  unfold commitWrite atomicWriteLines
  rw [hw]
  rfl

/-- Bytes a successful found-toggle leaves in the target file. -/
theorem toggleList_found_bytes (repo : RepoEntry) (env : Env) (st : SysState)
    (L : List Str) (hw : env.writeOk = true)
    (hrep : replaceFirst repo.display (toggledLine repo.display repo.enabled)
      (readAllLines st repo.file) = some L) :
    readBytes (toggleList repo env st).2 repo.file = linesToBytes L := by
  unfold toggleList
  rw [hrep]
  show readBytes (commitWrite repo.file L env st).2 repo.file = _
  unfold readBytes
  rw [commitWrite_files_of_writeOk repo.file L env st hw, fsGet_fsSet_self]
  rfl

theorem toggleList_found_true (repo : RepoEntry) (env : Env) (st : SysState)
    (L : List Str) (hw : env.writeOk = true)
    (hrep : replaceFirst repo.display (toggledLine repo.display repo.enabled)
      (readAllLines st repo.file) = some L) :
    (toggleList repo env st).1.1 = true := by
  unfold toggleList
  rw [hrep]
  exact commitWrite_succeeds repo.file L env st hw

theorem deb_head (d : Str) (h : "deb".toList.isPrefixOf d = true) :
    ∃ t, d = 'd' :: 'e' :: 'b' :: t := by
  match d with
  | [] => exact Bool.noConfusion h
  | [c1] => simp [List.isPrefixOf] at h
  | [c1, c2] => simp [List.isPrefixOf] at h
  | c1 :: c2 :: c3 :: t =>
    simp only [List.isPrefixOf, Bool.and_eq_true, beq_iff_eq] at h
    obtain ⟨h1, h2, h3, -⟩ := h
    exact ⟨t, by rw [h1, h2, h3]⟩

/-- Claim C2 counterexample: the entry loaded from a file whose directive
line carries a leading space does not round-trip: the second toggle trims
the line, so the leading space is lost and the final content differs from
the original bytes. Both entries are exactly what the parser loads before
each toggle. -/
theorem double_toggle_not_byte_identical :
    parseListFile "f".toList
        (readAllLines ⟨[("f".toList, " deb a b\n".toList)], [], []⟩ "f".toList)
      = [⟨"f".toList, " deb a b".toList, true, false, -1, "a".toList, "b".toList, [],
          "deb".toList⟩] ∧
    parseListFile "f".toList
        (readAllLines (toggleList
          (⟨"f".toList, " deb a b".toList, true, false, -1, "a".toList, "b".toList, [],
            "deb".toList⟩ : RepoEntry) envAll
          ⟨[("f".toList, " deb a b\n".toList)], [], []⟩).2 "f".toList)
      = [⟨"f".toList, "#  deb a b".toList, false, false, -1, "a".toList, "b".toList, [],
          "deb".toList⟩] ∧
    readBytes (toggleList
        (⟨"f".toList, "#  deb a b".toList, false, false, -1, "a".toList, "b".toList, [],
          "deb".toList⟩ : RepoEntry) envAll
        (toggleList
          (⟨"f".toList, " deb a b".toList, true, false, -1, "a".toList, "b".toList, [],
            "deb".toList⟩ : RepoEntry) envAll
          ⟨[("f".toList, " deb a b\n".toList)], [], []⟩).2).2 "f".toList
      = "deb a b\n".toList ∧
    "deb a b\n".toList ≠ " deb a b\n".toList := by
  refine ⟨by decide, by decide, by decide, by decide⟩

/-- Claim C2 (amended): toggling twice, with the entry list reloaded from
disk in between and no external edit, returns the file to byte-identical
content provided the file content is canonical (newline-terminated), the
directive line is in canonical form (trimmed, starting with `deb`; its
disabled form is exactly `"# "` followed by that text), and the toggled
form of the line does not occur elsewhere in the file. Both directions
(enabled first or disabled first) hold. -/
theorem double_toggle_roundtrip (env : Env) (st : SysState) (f d : Str)
    (pre post : List Str) (hw : env.writeOk = true)
    (hcanon : linesToBytes (splitLines (readBytes st f)) = readBytes st f)
    (htrim : trimStr d = d) (hdeb : "deb".toList.isPrefixOf d = true) :
    (splitLines (readBytes st f) = pre ++ d :: post → d ∉ pre →
      ('#' :: ' ' :: d) ∉ splitLines (readBytes st f) →
      ∀ e1 : RepoEntry, e1.file = f → e1.display = d → e1.enabled = true →
        (toggleList e1 env st).1.1 = true ∧
        (∃ e ∈ parseListFile f (readAllLines (toggleList e1 env st).2 f),
            e.display = '#' :: ' ' :: d ∧ e.enabled = false) ∧
        (∀ e2 : RepoEntry, e2.file = f → e2.display = '#' :: ' ' :: d →
          e2.enabled = false →
          readBytes (toggleList e2 env (toggleList e1 env st).2).2 f
            = readBytes st f)) ∧
    (splitLines (readBytes st f) = pre ++ ('#' :: ' ' :: d) :: post →
      ('#' :: ' ' :: d) ∉ pre → d ∉ splitLines (readBytes st f) →
      ∀ e1 : RepoEntry, e1.file = f → e1.display = '#' :: ' ' :: d →
        e1.enabled = false →
        (toggleList e1 env st).1.1 = true ∧
        (∃ e ∈ parseListFile f (readAllLines (toggleList e1 env st).2 f),
            e.display = d ∧ e.enabled = true) ∧
        (∀ e2 : RepoEntry, e2.file = f → e2.display = d → e2.enabled = true →
          readBytes (toggleList e2 env (toggleList e1 env st).2).2 f
            = readBytes st f)) := by
  obtain ⟨dt, hdt⟩ := deb_head d hdeb
  have hdne : d ≠ [] := by rw [hdt]; exact List.cons_ne_nil _ _
  have hstrip : trimStr (('#' :: ' ' :: d).drop
      (if cppIndex ('#' :: ' ' :: d) 1 = ' ' then 2 else 1)) = d := by
    have : cppIndex ('#' :: ' ' :: d) 1 = ' ' := rfl
    rw [this, if_pos rfl]
    exact htrim
  have hth : trimStr ('#' :: ' ' :: d) = '#' :: ' ' :: d := trimStr_hash_space d htrim hdne
  have hnl_of_mem : ∀ l ∈ splitLines (readBytes st f), '\n' ∉ l :=
    mem_splitLines_no_newline (readBytes st f)
  constructor
  · intro hsplit hpre hni e1 hf1 hd1 hen1
    have htog : toggledLine e1.display e1.enabled = '#' :: ' ' :: d := by
      rw [hd1, hen1]; rfl
    have hrep1 : replaceFirst e1.display (toggledLine e1.display e1.enabled)
        (readAllLines st e1.file) = some (pre ++ ('#' :: ' ' :: d) :: post) := by
      rw [htog, hd1, hf1]
      show replaceFirst d ('#' :: ' ' :: d) (splitLines (readBytes st f)) = _
      rw [hsplit]
      exact replaceFirst_split d _ pre post hpre
    have hb1 : readBytes (toggleList e1 env st).2 f
        = linesToBytes (pre ++ ('#' :: ' ' :: d) :: post) := by
      have := toggleList_found_bytes e1 env st _ hw hrep1
      rw [hf1] at this
      exact this
    have hlines1 : readAllLines (toggleList e1 env st).2 f
        = pre ++ ('#' :: ' ' :: d) :: post := by
      show splitLines (readBytes (toggleList e1 env st).2 f) = _
      rw [hb1]
      refine splitLines_linesToBytes _ ?_
      have hdn : '\n' ∉ d := hnl_of_mem d
        (by rw [hsplit]; exact List.mem_append_right pre (List.mem_cons_self d post))
      intro l hl
      rcases List.mem_append.mp hl with h | h
      · exact hnl_of_mem l (by rw [hsplit]; exact List.mem_append_left _ h)
      · rcases List.mem_cons.mp h with rfl | h
        · intro hmem
          rcases List.mem_cons.mp hmem with h1 | h1
          · exact absurd h1 (by decide)
          · rcases List.mem_cons.mp h1 with h2 | h2
            · exact absurd h2 (by decide)
            · exact hdn h2
        · refine hnl_of_mem l ?_
          rw [hsplit]
          exact List.mem_append_right pre (List.mem_cons_of_mem d h)
    refine ⟨toggleList_found_true e1 env st _ hw hrep1, ?_, ?_⟩
    · -- the reloaded entry for the toggled line exists and is disabled
      have hmem : ('#' :: ' ' :: d) ∈ readAllLines (toggleList e1 env st).2 f := by
        rw [hlines1]; exact List.mem_append_right _ (List.mem_cons_self _ _)
      have hq1 : (trimStr ('#' :: ' ' :: d)).isEmpty = false := by rw [hth]; rfl
      have hq2 : ("deb".toList.isPrefixOf (trimStr ('#' :: ' ' :: d)) ||
          (decide (cppIndex (trimStr ('#' :: ' ' :: d)) 0 = '#') &&
            "deb".toList.isPrefixOf
              (trimStr ((trimStr ('#' :: ' ' :: d)).drop 1)))) = true := by
        rw [hth]
        have hh : cppIndex ('#' :: ' ' :: d) 0 = '#' := rfl
        have hd1' : trimStr (('#' :: ' ' :: d).drop 1) = d := by
          show trimStr (' ' :: d) = d
          rw [trimStr_cons_sp ' ' d rfl, htrim]
        rw [hh]
        show ("deb".toList.isPrefixOf ('#' :: ' ' :: d) ||
          (decide ('#' = '#') && "deb".toList.isPrefixOf (trimStr (' ' :: d)))) = true
        rw [show trimStr (' ' :: d) = d from by
          rw [trimStr_cons_sp ' ' d rfl, htrim], hdeb]
        simp
      obtain ⟨e, he, hedisp, heen⟩ := parseListFile_mem f _ _ hmem hq1 hq2
      refine ⟨e, he, hedisp, ?_⟩
      rw [heen, hth]
      show (!decide (cppIndex ('#' :: ' ' :: d) 0 = '#')) = false
      simp [cppIndex]
    · intro e2 hf2 hd2 hen2
      have htog2 : toggledLine e2.display e2.enabled = d := by
        rw [hd2, hen2]
        show toggledLine ('#' :: ' ' :: d) false = d
        unfold toggledLine
        rw [if_neg (by simp)]
        exact hstrip
      have hrt : replaceFirst ('#' :: ' ' :: d) d (pre ++ ('#' :: ' ' :: d) :: post)
          = some (splitLines (readBytes st f)) := by
        refine replaceFirst_roundtrip d ('#' :: ' ' :: d) (splitLines (readBytes st f))
          _ hni ?_
        rw [hsplit]
        exact replaceFirst_split d _ pre post hpre
      have hrep2 : replaceFirst e2.display (toggledLine e2.display e2.enabled)
          (readAllLines (toggleList e1 env st).2 e2.file)
            = some (splitLines (readBytes st f)) := by
        rw [htog2, hd2, hf2, hlines1]
        exact hrt
      have := toggleList_found_bytes e2 env (toggleList e1 env st).2 _ hw hrep2
      rw [hf2] at this
      rw [this, hcanon]
  · intro hsplit hpre hni e1 hf1 hd1 hen1
    have htog : toggledLine e1.display e1.enabled = d := by
      rw [hd1, hen1]
      show toggledLine ('#' :: ' ' :: d) false = d
      unfold toggledLine
      rw [if_neg (by simp)]
      exact hstrip
    have hrep1 : replaceFirst e1.display (toggledLine e1.display e1.enabled)
        (readAllLines st e1.file) = some (pre ++ d :: post) := by
      rw [htog, hd1, hf1]
      show replaceFirst ('#' :: ' ' :: d) d (splitLines (readBytes st f)) = _
      rw [hsplit]
      exact replaceFirst_split _ _ pre post hpre
    have hb1 : readBytes (toggleList e1 env st).2 f
        = linesToBytes (pre ++ d :: post) := by
      have := toggleList_found_bytes e1 env st _ hw hrep1
      rw [hf1] at this
      exact this
    have hlines1 : readAllLines (toggleList e1 env st).2 f = pre ++ d :: post := by
      show splitLines (readBytes (toggleList e1 env st).2 f) = _
      rw [hb1]
      refine splitLines_linesToBytes _ ?_
      intro l hl
      rcases List.mem_append.mp hl with h | h
      · exact hnl_of_mem l (by rw [hsplit]; exact List.mem_append_left _ h)
      · rcases List.mem_cons.mp h with rfl | h
        · intro hmem
          have hx : ('#' :: ' ' :: l) ∈ splitLines (readBytes st f) := by
            rw [hsplit]; exact List.mem_append_right pre (List.mem_cons_self _ _)
          exact hnl_of_mem ('#' :: ' ' :: l) hx
            (List.mem_cons_of_mem _ (List.mem_cons_of_mem _ hmem))
        · refine hnl_of_mem l ?_
          rw [hsplit]
          exact List.mem_append_right pre (List.mem_cons_of_mem _ h)
    refine ⟨toggleList_found_true e1 env st _ hw hrep1, ?_, ?_⟩
    · have hmem : d ∈ readAllLines (toggleList e1 env st).2 f := by
        rw [hlines1]; exact List.mem_append_right _ (List.mem_cons_self _ _)
      have hq1 : (trimStr d).isEmpty = false := by rw [htrim, hdt]; rfl
      have hq2 : ("deb".toList.isPrefixOf (trimStr d) ||
          (decide (cppIndex (trimStr d) 0 = '#') &&
            "deb".toList.isPrefixOf (trimStr ((trimStr d).drop 1)))) = true := by
        rw [htrim, hdeb]
        simp
      obtain ⟨e, he, hedisp, heen⟩ := parseListFile_mem f _ _ hmem hq1 hq2
      refine ⟨e, he, hedisp, ?_⟩
      rw [heen, htrim, hdt]
      show (!decide (cppIndex ('d' :: 'e' :: 'b' :: dt) 0 = '#')) = true
      simp [cppIndex]
    · intro e2 hf2 hd2 hen2
      have htog2 : toggledLine e2.display e2.enabled = '#' :: ' ' :: d := by
        rw [hd2, hen2]; rfl
      have hrt : replaceFirst d ('#' :: ' ' :: d) (pre ++ d :: post)
          = some (splitLines (readBytes st f)) := by
        refine replaceFirst_roundtrip ('#' :: ' ' :: d) d (splitLines (readBytes st f))
          _ hni ?_
        rw [hsplit]
        exact replaceFirst_split _ _ pre post hpre
      have hrep2 : replaceFirst e2.display (toggledLine e2.display e2.enabled)
          (readAllLines (toggleList e1 env st).2 e2.file)
            = some (splitLines (readBytes st f)) := by
        rw [htog2, hd2, hf2, hlines1]
        exact hrt
      have := toggleList_found_bytes e2 env (toggleList e1 env st).2 _ hw hrep2
      rw [hf2] at this
      rw [this, hcanon]

/-- Witness for the amended C2: a canonical enabled line round-trips. -/
theorem double_toggle_roundtrip_witness :
    (toggleList
        (⟨"f".toList, "deb a b".toList, true, false, -1, "a".toList, "b".toList, [],
          "deb".toList⟩ : RepoEntry) envAll
        ⟨[("f".toList, "deb a b\n".toList)], [], []⟩).1.1 = true ∧
    readBytes (toggleList
        (⟨"f".toList, "# deb a b".toList, false, false, -1, "a".toList, "b".toList, [],
          "deb".toList⟩ : RepoEntry) envAll
        (toggleList
          (⟨"f".toList, "deb a b".toList, true, false, -1, "a".toList, "b".toList, [],
            "deb".toList⟩ : RepoEntry) envAll
          ⟨[("f".toList, "deb a b\n".toList)], [], []⟩).2).2 "f".toList
      = readBytes ⟨[("f".toList, "deb a b\n".toList)], [], []⟩ "f".toList := by
  have h := (double_toggle_roundtrip envAll ⟨[("f".toList, "deb a b\n".toList)], [], []⟩
      "f".toList "deb a b".toList [] [] rfl (by decide) (by decide) (by decide)).1
      (by decide) (by decide) (by decide)
      ⟨"f".toList, "deb a b".toList, true, false, -1, "a".toList, "b".toList, [],
        "deb".toList⟩ rfl rfl rfl
  exact ⟨h.1, h.2.2
    ⟨"f".toList, "# deb a b".toList, false, false, -1, "a".toList, "b".toList, [],
      "deb".toList⟩ rfl rfl rfl⟩

/- ── C1: block enumeration ─────────────────────────────────────────── -/

/-- A prefix containing an element failing `P` has a `countP` strictly
below its length. -/
theorem countP_take_lt {α : Type} (P : α → Bool) :
    ∀ (l : List α) (p j : Nat) (x : α), l.get? j = some x → P x = false → j < p →
      (l.take p).countP P < p := by
  intro l
  induction l with
  | nil => intro p j x hx; simp at hx
  | cons a t ih =>
    intro p j x hx hPx hj
    cases j with
    | zero =>
      obtain rfl : a = x := by simpa using hx
      obtain ⟨p', rfl⟩ : ∃ p', p = p' + 1 := ⟨p - 1, by omega⟩
      have h1 : ((t.take p').countP P) ≤ (t.take p').length := List.countP_le_length _
      have h2 : (t.take p').length ≤ p' := List.length_take_le p' t
      have hcons : ((a :: t).take (p' + 1)).countP P
          = (t.take p').countP P + if P a then 1 else 0 := by
        rw [List.take_succ_cons, List.countP_cons]
      rw [hcons, if_neg (by rw [hPx]; exact Bool.false_ne_true)]
      omega
    | succ j' =>
      obtain ⟨p', rfl⟩ : ∃ p', p = p' + 1 := ⟨p - 1, by omega⟩
      have hx' : t.get? j' = some x := by simpa using hx
      have hIH := ih p' j' x hx' hPx (by omega)
      have hcons : ((a :: t).take (p' + 1)).countP P
          = (t.take p').countP P + if P a then 1 else 0 := by
        rw [List.take_succ_cons, List.countP_cons]
      rw [hcons]
      by_cases hPa : P a = true
      · rw [if_pos hPa]; omega
      · rw [if_neg hPa]; omega

/-- Every entry the parser emits for the block at position `p` (with the
running accepted-count as its index) is in the parse result. -/
theorem processBlocks_mem_of_accept (path : Str) :
    ∀ (bs : List (List Str)) (n p : Nat) (hp : p < bs.length),
      acceptBlock (bs.get ⟨p, hp⟩) = true →
      ∀ e ∈ blockEntries path (n + (bs.take p).countP acceptBlock) (bs.get ⟨p, hp⟩),
        e ∈ processBlocks path n bs := by
  intro bs
  induction bs with
  | nil => intro n p hp; simp at hp
  | cons b t ih =>
    intro n p hp hacc e he
    cases p with
    | zero =>
      rw [List.take_zero, List.countP_nil, Nat.add_zero] at he
      rw [processBlocks, if_pos (by simpa using hacc)]
      exact List.mem_append_left _ (by simpa using he)
    | succ p' =>
      have hp' : p' < t.length := by simpa using hp
      have hget : (b :: t).get ⟨p' + 1, hp⟩ = t.get ⟨p', hp'⟩ := rfl
      rw [hget] at hacc he
      rw [List.take_succ_cons, List.countP_cons] at he
      by_cases hb : acceptBlock b = true
      · rw [processBlocks, if_pos hb]
        refine List.mem_append_right _ ?_
        have harith : n + ((t.take p').countP acceptBlock +
            if acceptBlock b then 1 else 0)
              = (n + 1) + (t.take p').countP acceptBlock := by
          rw [hb]; simp; omega
        rw [harith] at he
        exact ih (n + 1) p' hp' hacc e he
      · rw [processBlocks, if_neg hb]
        have harith : n + ((t.take p').countP acceptBlock +
            if acceptBlock b then 1 else 0)
              = n + (t.take p').countP acceptBlock := by
          rw [Bool.eq_false_iff.mpr hb]; simp
        rw [harith] at he
        exact ih n p' hp' hacc e he

/-- An accepted block emits at least one entry, and it carries the given
block index. -/
theorem blockEntries_nonempty (path : Str) (bi : Nat) (b : List Str)
    (hacc : acceptBlock b = true) :
    ∃ e ∈ blockEntries path bi b, e.blockIndex = (bi : Int) := by
  unfold acceptBlock at hacc
  rw [Bool.and_eq_true, Bool.and_eq_true] at hacc
  obtain ⟨⟨-, hu⟩, hs⟩ := hacc
  obtain ⟨u, ut, hut⟩ : ∃ u ut, (blockFields b).uris = u :: ut := by
    cases h : (blockFields b).uris with
    | nil => rw [h] at hu; simp at hu
    | cons u ut => exact ⟨u, ut, rfl⟩
  obtain ⟨s, st', hst⟩ : ∃ s st', (blockFields b).suites = s :: st' := by
    cases h : (blockFields b).suites with
    | nil => rw [h] at hs; simp at hs
    | cons s st' => exact ⟨s, st', rfl⟩
  refine ⟨mkSourcesEntry path bi (blockFields b) u s, ?_, rfl⟩
  unfold blockEntries
  refine List.mem_flatMap.mpr ⟨u, ?_, ?_⟩
  · rw [hut]; exact List.mem_cons_self _ _
  · exact List.mem_map.mpr ⟨s, by rw [hst]; exact List.mem_cons_self _ _, rfl⟩

/-- The mutation engine's range scan finds exactly as many blocks as the
parser's grouping loop. -/
theorem blockRangesAux_length_eq :
    ∀ (ls : List Str) (i : Nat) (st : Option Nat) (b : List Str),
      ((st = none ∧ b = []) ∨ ((∃ x, st = some x) ∧ b ≠ [])) →
      (blockRangesAux ls i st).length = (fileBlocksAux ls b).length := by
  intro ls
  induction ls with
  | nil =>
    rintro i st b (⟨rfl, rfl⟩ | ⟨⟨x, rfl⟩, hb⟩)
    · rfl
    · rw [blockRangesAux, fileBlocksAux, if_neg (by simpa using hb)]
      rfl
  | cons l t ih =>
    rintro i st b (⟨rfl, rfl⟩ | ⟨⟨x, rfl⟩, hb⟩) <;>
      by_cases hbl : (trimStr l).isEmpty = true
    · rw [blockRangesAux, if_pos hbl, fileBlocksAux, if_pos hbl, if_pos (by rfl)]
      exact ih (i + 1) none [] (Or.inl ⟨rfl, rfl⟩)
    · rw [blockRangesAux, if_neg hbl, fileBlocksAux, if_neg hbl]
      exact ih (i + 1) (some i) [l] (Or.inr ⟨⟨i, rfl⟩, by simp⟩)
    · rw [blockRangesAux, if_pos hbl, fileBlocksAux, if_pos hbl,
        if_neg (by simpa using hb)]
      simp only [List.length_cons]
      rw [ih (i + 1) none [] (Or.inl ⟨rfl, rfl⟩)]
    · rw [blockRangesAux, if_neg hbl, fileBlocksAux, if_neg hbl]
      exact ih (i + 1) (some x) (l :: b) (Or.inr ⟨⟨x, rfl⟩, by simp⟩)

theorem blockRanges_length_eq (lines : List Str) :
    (blockRanges lines).length = (fileBlocks lines).length :=
  blockRangesAux_length_eq lines 0 none [] (Or.inl ⟨rfl, rfl⟩)

/-- Every range produced from position `i` (or an open block started at
`bs`) starts no earlier than that position. -/
theorem blockRangesAux_lb :
    ∀ (ls : List Str) (i : Nat),
      (∀ r ∈ blockRangesAux ls i none, i ≤ r.1) ∧
      (∀ bs, bs ≤ i → ∀ r ∈ blockRangesAux ls i (some bs), bs ≤ r.1) := by
  intro ls
  induction ls with
  | nil =>
    intro i
    constructor
    · intro r hr; simp [blockRangesAux] at hr
    · intro bs _ r hr
      rw [blockRangesAux] at hr
      obtain rfl : r = (bs, i - 1) := by simpa using hr
      exact Nat.le_refl bs
  | cons l t ih =>
    intro i
    constructor
    · intro r hr
      rw [blockRangesAux] at hr
      by_cases hbl : (trimStr l).isEmpty = true
      · rw [if_pos hbl] at hr
        exact Nat.le_of_succ_le ((ih (i + 1)).1 r hr)
      · rw [if_neg hbl] at hr
        exact (ih (i + 1)).2 i (Nat.le_succ i) r hr
    · intro bs hbs r hr
      rw [blockRangesAux] at hr
      by_cases hbl : (trimStr l).isEmpty = true
      · rw [if_pos hbl] at hr
        rcases List.mem_cons.mp hr with rfl | hr
        · exact Nat.le_refl bs
        · exact Nat.le_trans (Nat.le_succ_of_le hbs) ((ih (i + 1)).1 r hr)
      · rw [if_neg hbl] at hr
        exact (ih (i + 1)).2 bs (Nat.le_succ_of_le hbs) r hr

/-- The mutation engine's ranges have strictly increasing start lines, so
distinct positions designate distinct physical blocks. -/
theorem blockRangesAux_pairwise :
    ∀ (ls : List Str) (i : Nat),
      (blockRangesAux ls i none).Pairwise (fun a b => a.1 < b.1) ∧
      (∀ bs, bs ≤ i →
        (blockRangesAux ls i (some bs)).Pairwise (fun a b => a.1 < b.1)) := by
  intro ls
  induction ls with
  | nil =>
    intro i
    refine ⟨List.Pairwise.nil, ?_⟩
    intro bs _
    rw [blockRangesAux]
    exact List.pairwise_singleton _ _
  | cons l t ih =>
    intro i
    constructor
    · rw [blockRangesAux]
      by_cases hbl : (trimStr l).isEmpty = true
      · rw [if_pos hbl]; exact (ih (i + 1)).1
      · rw [if_neg hbl]; exact (ih (i + 1)).2 i (Nat.le_succ i)
    · intro bs hbs
      rw [blockRangesAux]
      by_cases hbl : (trimStr l).isEmpty = true
      · rw [if_pos hbl]
        refine List.Pairwise.cons ?_ (ih (i + 1)).1
        intro r hr
        have : i + 1 ≤ r.1 := (blockRangesAux_lb t (i + 1)).1 r hr
        show bs < r.1
        omega
      · rw [if_neg hbl]
        exact (ih (i + 1)).2 bs (Nat.le_succ_of_le hbs)

theorem blockRanges_get?_ne (lines : List Str) (i j : Nat) (hij : i < j)
    (hj : j < (blockRanges lines).length) :
    (blockRanges lines).get? i ≠ (blockRanges lines).get? j := by
  have hi : i < (blockRanges lines).length := Nat.lt_trans hij hj
  have hpw : (blockRanges lines).Pairwise (fun a b => a.1 < b.1) :=
    (blockRangesAux_pairwise lines 0).1
  have hlt := List.pairwise_iff_get.mp hpw ⟨i, hi⟩ ⟨j, hj⟩ hij
  rw [List.get?_eq_get hi, List.get?_eq_get hj]
  intro heq
  have : (blockRanges lines).get ⟨i, hi⟩ = (blockRanges lines).get ⟨j, hj⟩ :=
    Option.some_injective _ heq
  rw [this] at hlt
  exact Nat.lt_irrefl _ hlt

/-- Claim C1: the parser numbers only accepted blocks while the mutation
engine numbers every maximal non-blank run; so in a `.sources` file where
some rejected block precedes an accepted block at physical position `p`,
the entries parsed from that block carry a `blockIndex` strictly below
`p`, and under the mutation engine's enumeration (which has exactly one
range per physical block, with strictly increasing starts) that index
designates a different physical block than the one the entries came
from. -/
theorem parser_mutation_block_enumeration_divergence (path : Str) (lines : List Str)
    (p j : Nat) (hp : p < (fileBlocks lines).length)
    (hacc : acceptBlock ((fileBlocks lines).get ⟨p, hp⟩) = true)
    (hj : j < p)
    (hrej : acceptBlock ((fileBlocks lines).get ⟨j, Nat.lt_trans hj hp⟩) = false) :
    (∃ e ∈ parseSourcesFile path lines,
        e ∈ blockEntries path (((fileBlocks lines).take p).countP acceptBlock)
          ((fileBlocks lines).get ⟨p, hp⟩) ∧
        e.blockIndex = ((((fileBlocks lines).take p).countP acceptBlock : Nat) : Int)) ∧
    ((fileBlocks lines).take p).countP acceptBlock < p ∧
    (blockRanges lines).length = (fileBlocks lines).length ∧
    (blockRanges lines).get? (((fileBlocks lines).take p).countP acceptBlock)
      ≠ (blockRanges lines).get? p := by
  have hlt : ((fileBlocks lines).take p).countP acceptBlock < p := by
    refine countP_take_lt acceptBlock (fileBlocks lines) p j _ ?_ hrej hj
    exact List.get?_eq_get (Nat.lt_trans hj hp)
  have hlen : (blockRanges lines).length = (fileBlocks lines).length :=
    blockRanges_length_eq lines
  refine ⟨?_, hlt, hlen, ?_⟩
  · obtain ⟨e, he, hbi⟩ := blockEntries_nonempty path
      (((fileBlocks lines).take p).countP acceptBlock)
      ((fileBlocks lines).get ⟨p, hp⟩) hacc
    refine ⟨e, ?_, he, hbi⟩
    unfold parseSourcesFile
    refine processBlocks_mem_of_accept path (fileBlocks lines) 0 p hp hacc e ?_
    rw [Nat.zero_add]
    exact he
  · exact blockRanges_get?_ne lines _ p hlt (by rw [hlen]; exact hp)

/-- Concrete `.sources` line sequence with a rejected block before an
accepted one. -/
def c1lines : List Str :=
  ["Types: rpm".toList, [], "Types: deb".toList, "URIs: http://a".toList,
    "Suites: s".toList]

/-- Witness for C1 on that file. -/
theorem parser_mutation_block_enumeration_divergence_witness :
    (∃ e ∈ parseSourcesFile "d.sources".toList c1lines,
        e ∈ blockEntries "d.sources".toList
          (((fileBlocks c1lines).take 1).countP acceptBlock)
          ((fileBlocks c1lines).get ⟨1, by decide⟩) ∧
        e.blockIndex
          = ((((fileBlocks c1lines).take 1).countP acceptBlock : Nat) : Int)) ∧
    ((fileBlocks c1lines).take 1).countP acceptBlock < 1 ∧
    (blockRanges c1lines).length = (fileBlocks c1lines).length ∧
    (blockRanges c1lines).get? (((fileBlocks c1lines).take 1).countP acceptBlock)
      ≠ (blockRanges c1lines).get? 1 :=
  parser_mutation_block_enumeration_divergence "d.sources".toList c1lines 1 0
    (by decide) (by decide) (by decide) (by decide)

end Relix
